import Mathlib

/-!
Verification development for the `lexime` Japanese IME conversion engine.

The repository ships `src/engine/include/engine.h`, the C boundary of the
engine (dictionary, connection matrix, lattice/Viterbi conversion, user
history, romaji transduction, input session).  The implementation behind the
header is not part of the source tree, so the definitions below are a shallow
embedding modelled from the repository's specification (`spec.md`): strings
are lists of codepoints, costs are integers, fallible I/O outcomes are
explicit parameters, and each `lex_*` entry point of the header becomes a
total Lean function of the same name.
-/

/-! ## Generic list machinery: a stable insertion sort and key-based dedup -/

/-- Insert `a` into `l` in front of the first element `b` with `le a b`.
Used by the stable sort below. -/
def ordInsert (le : α → α → Bool) (a : α) : List α → List α
  | [] => [a]
  | b :: l => if le a b then a :: b :: l else b :: ordInsert le a l

/-- Stable insertion sort with a boolean comparison.  An element is placed
before the first already-sorted element it compares `le` to, so elements that
tie keep their original relative order. -/
def insSort (le : α → α → Bool) : List α → List α
  | [] => []
  | a :: l => ordInsert le a (insSort le l)

/-- Keep the first occurrence of each key, dropping later elements whose key
was already seen (`seen` accumulates emitted keys). -/
def dedupByKey [DecidableEq β] (key : α → β) : List α → List β → List α
  | [], _ => []
  | x :: rest, seen =>
    if key x ∈ seen then dedupByKey key rest seen
    else x :: dedupByKey key rest (key x :: seen)

/-- Deduplicate a list on a key, keeping first occurrences in order. -/
def dedupKey [DecidableEq β] (key : α → β) (l : List α) : List α :=
  dedupByKey key l []

/-- Boolean test that `p` is an initial run of `s` (kana-codepoint by
codepoint). -/
def startsWith : List Char → List Char → Bool
  | [], _ => true
  | _ :: _, [] => false
  | a :: as, b :: bs => a = b && startsWith as bs

/-! ## Data model (engine.h: `LexCandidate`, `LexSegment`, `LexDict`,
`LexConnectionMatrix`) -/

/-- Modelled from the spec: a dictionary candidate `{reading, surface, cost,
left_id, right_id}` (engine.h `LexCandidate` plus the class IDs of §3: cost is
a negative log probability, lower is better; the IDs index the connection
matrix). -/
structure LexCandidate where
  reading : List Char
  surface : List Char
  cost : Int
  left_id : Nat
  right_id : Nat
deriving DecidableEq

/-- Modelled from the spec: a committed unit `{reading, surface}` (engine.h
`LexSegment`). -/
structure LexSegment where
  reading : List Char
  surface : List Char
deriving DecidableEq

/-- Modelled from the spec: the in-memory dictionary. The trie of §3 is
abstracted as its entry list in insertion order; `lex_dict_open` (I/O) is out
of scope, the loaded dictionary is taken as given. -/
structure LexDict where
  entries : List LexCandidate
deriving DecidableEq

/-- Modelled from the spec: the dense `M × M` bigram cost table of §3,
abstracted as its dimension and a total cost function. -/
structure LexConnectionMatrix where
  size : Nat
  cost : Nat → Nat → Int

/-- Modelled from the spec (§4.C): out-of-range lookups resolve to a penalty
sentinel, not a failure. -/
def connSentinel : Int := 10000

/-- Modelled from the spec: bigram cost `cost[prev_right_id][cur_left_id]`.
The matrix pointer is `_Nullable` at the conversion interface (engine.h), so
an absent matrix contributes no bigram cost. -/
def lex_conn_cost (conn : Option LexConnectionMatrix) (prev_right cur_left : Nat) : Int :=
  match conn with
  | none => 0
  | some m => if prev_right < m.size ∧ cur_left < m.size then m.cost prev_right cur_left else connSentinel

/-! ## Dictionary lookup and prediction (engine.h `lex_dict_lookup`,
`lex_dict_predict`) -/

/-- The dedup key of §4.B: `(reading, surface)`. -/
def rsKey (c : LexCandidate) : List Char × List Char :=
  (c.reading, c.surface)

/-- Cost comparison used for candidate ordering (ties are then broken by the
stability of `insSort`, i.e. insertion order). -/
def costLE (a b : LexCandidate) : Bool :=
  a.cost ≤ b.cost

/-- Modelled from the spec (§4.B): the exact-key candidates in insertion
order, deduplicated on `(reading, surface)`. -/
def lookupPrep (dict : LexDict) (reading : List Char) : List LexCandidate :=
  dedupKey rsKey (dict.entries.filter (fun c => c.reading = reading))

/-- Modelled from the spec (§4.B): `lex_dict_lookup` returns the candidates
for an exact key, sorted by ascending cost, ties broken by stable insertion
order, never containing duplicates on `(reading, surface)`. -/
def lex_dict_lookup (dict : LexDict) (reading : List Char) : List LexCandidate :=
  insSort costLE (lookupPrep dict reading)

/-- Modelled from the spec (§4.B): the candidates whose reading extends the
given kana run, in insertion order, deduplicated on `(reading, surface)`. -/
def predictPrep (dict : LexDict) (p : List Char) : List LexCandidate :=
  dedupKey rsKey (dict.entries.filter (fun c => startsWith p c.reading))

/-- The prediction pool sorted by ascending cost. -/
def predictSorted (dict : LexDict) (p : List Char) : List LexCandidate :=
  insSort costLE (predictPrep dict p)

/-- Modelled from the spec (§4.B): `lex_dict_predict` returns up to
`max_results` candidates whose reading extends `p`, the cheapest ones when
more exist. -/
def lex_dict_predict (dict : LexDict) (p : List Char) (max_results : Nat) : List LexCandidate :=
  (predictSorted dict p).take max_results

/-! ## Lattice construction and conversion (engine.h `lex_convert`,
`lex_convert_nbest`) -/

/-- Modelled from the spec (§6): the per-character unknown-node penalty. -/
def unknownPenalty : Int := 1000

/-- Modelled from the spec (§4.E): reserved class ID of the virtual BOS. -/
def bosClassId : Nat := 0

/-- Modelled from the spec (§4.E): reserved class ID of the virtual EOS. -/
def eosClassId : Nat := 0

/-- Modelled from the spec (§4.E): the class ID shared by unknown nodes. -/
def unknownClassId : Nat := 1

/-- The nonempty initial runs `kana[0..j]` of the input, candidates for the
reading of the first lattice segment. -/
def segReads (s : List Char) : List (List Char) :=
  (List.range s.length).map (fun k => s.take (k + 1))

/-- Modelled from the spec (§4.E): the single-character unknown node at a
position (surface = the character itself, cost = the unknown penalty,
left/right IDs = the unknown class). -/
def unknownNodeOf (c : Char) : LexCandidate :=
  ⟨[c], [c], unknownPenalty, unknownClassId, unknownClassId⟩

/-- Modelled from the spec (§4.E): the lattice nodes usable as the first
segment of `s`: one node per dictionary candidate of each initial run, plus
the unknown node of the first character, so that no gap can occur. -/
def firstSegs (dict : LexDict) (s : List Char) : List LexCandidate :=
  (segReads s).flatMap (fun r => lex_dict_lookup dict r) ++
    (match s with
     | [] => []
     | c :: _ => [unknownNodeOf c])

/-- Concatenated readings of a lattice path. -/
def concatReads (p : List LexCandidate) : List Char :=
  p.foldr (fun c acc => c.reading ++ acc) []

/-- Fuel-indexed enumeration of every BOS-to-EOS lattice path: a path is a
list of nodes whose readings tile the input.  The fuel is an upper bound on
the input length, making the recursion structural (each first segment consumes
at least one character). -/
def latticePathsF (dict : LexDict) : Nat → List Char → List (List LexCandidate)
  | _, [] => [[]]
  | 0, _ :: _ => []
  | fuel + 1, c :: rest =>
    (firstSegs dict (c :: rest)).flatMap
      (fun x => (latticePathsF dict fuel ((c :: rest).drop x.reading.length)).map
        (fun p => x :: p))

/-- Modelled from the spec (§4.E): all lattice paths over the input. -/
def latticePaths (dict : LexDict) (s : List Char) : List (List LexCandidate) :=
  latticePathsF dict s.length s

/-- Modelled from the spec (§4.E): connection cost along a path, starting
from the class of the previous node and ending with the EOS transition. -/
def pathConnCost (conn : Option LexConnectionMatrix) : Nat → List LexCandidate → Int
  | prev, [] => lex_conn_cost conn prev eosClassId
  | prev, c :: rest => lex_conn_cost conn prev c.left_id + pathConnCost conn c.right_id rest

/-- Modelled from the spec (§4.E): total path cost = node costs plus bigram
connection costs from BOS through EOS. -/
def pathCost (conn : Option LexConnectionMatrix) (p : List LexCandidate) : Int :=
  p.foldr (fun c acc => c.cost + acc) 0 + pathConnCost conn bosClassId p

/-- The node-cost sequence of a path, used for tie-breaking. -/
def costsOf (p : List LexCandidate) : List Int :=
  p.map (fun c => c.cost)

/-- Lexicographic comparison of cost sequences (spec §4.E tie-breaking:
prefer the path whose first differing node has lower cost). -/
def intLexLE : List Int → List Int → Bool
  | [], _ => true
  | _ :: _, [] => false
  | a :: as, b :: bs => if a < b then true else if b < a then false else intLexLE as bs

/-- Modelled from the spec (§4.E tie-breaking): order paths by total cost,
then fewer segments, then lexicographically lower node costs; remaining ties
fall to the stable construction order. -/
def pathLE (conn : Option LexConnectionMatrix) (p q : List LexCandidate) : Bool :=
  if pathCost conn p < pathCost conn q then true
  else if pathCost conn q < pathCost conn p then false
  else if p.length < q.length then true
  else if q.length < p.length then false
  else intLexLE (costsOf p) (costsOf q)

/-- Modelled from the spec (§4.E): the exact n-best ordering — all lattice
paths in non-decreasing total cost with the spec's tie-breaks, remaining
ties stable by construction order. -/
def sortedPaths (dict : LexDict) (conn : Option LexConnectionMatrix) (s : List Char) :
    List (List LexCandidate) :=
  insSort (pathLE conn) (latticePaths dict s)

/-- The 1-best lattice path (the front of the exact ordering). -/
def convertPath (dict : LexDict) (conn : Option LexConnectionMatrix) (s : List Char) :
    List LexCandidate :=
  match sortedPaths dict conn s with
  | [] => []
  | p :: _ => p

/-- Project a lattice node to the committed unit it denotes. -/
def toSegment (c : LexCandidate) : LexSegment :=
  ⟨c.reading, c.surface⟩

/-- Modelled from the spec (§4.E, engine.h `lex_convert`): Viterbi 1-best
conversion of a kana input into segments. -/
def lex_convert (dict : LexDict) (conn : Option LexConnectionMatrix) (kana : List Char) :
    List LexSegment :=
  (convertPath dict conn kana).map toSegment

/-- The surface sequence of a lattice path (the n-best dedup key). -/
def surfacesOf (p : List LexCandidate) : List (List Char) :=
  p.map (fun c => c.surface)

/-- Modelled from the spec (§4.E, engine.h `lex_convert_nbest`): the n-best
paths — emitted in non-decreasing total cost, deduplicated on surface-sequence
equality, stopping at `n` unique paths or exhaustion. -/
def nbestPaths (dict : LexDict) (conn : Option LexConnectionMatrix) (s : List Char) (n : Nat) :
    List (List LexCandidate) :=
  (dedupKey surfacesOf (sortedPaths dict conn s)).take n

/-- Modelled from the spec (engine.h `lex_convert_nbest`): n-best conversion
results as segment sequences. -/
def lex_convert_nbest (dict : LexDict) (conn : Option LexConnectionMatrix) (s : List Char)
    (n : Nat) : List (List LexSegment) :=
  (nbestPaths dict conn s n).map (fun p => p.map toSegment)

/-- Concatenated readings of a segment sequence. -/
def concatSegReads (l : List LexSegment) : List Char :=
  l.foldr (fun seg acc => seg.reading ++ acc) []

/-! ## User history (engine.h `lex_history_record`, `lex_history_save`) -/

/-- Modelled from the spec (§3): a history entry for `(reading, surface)`
with its usage count and last-used tick. -/
structure HistEntry where
  reading : List Char
  surface : List Char
  count : Nat
  last_used_tick : Nat
deriving DecidableEq

/-- Modelled from the spec (§3, §4.D): the user history — the ordered
`(reading, surface)` map, the adjacency (bigram) side table, and the current
tick.  Eviction uses a decay the spec leaves open, so the bound/eviction pass
is out of scope here. -/
structure LexUserHistory where
  entries : List HistEntry
  bigrams : List ((List Char × List Char) × Nat)
  tick : Nat
deriving DecidableEq

/-- Increment the count (and refresh the tick) of the first entry matching
the segment, appending a fresh entry when none exists. -/
def recordOne (tick : Nat) (seg : LexSegment) : List HistEntry → List HistEntry
  | [] => [⟨seg.reading, seg.surface, 1, tick⟩]
  | e :: rest =>
    if e.reading = seg.reading ∧ e.surface = seg.surface then
      ⟨e.reading, e.surface, e.count + 1, tick⟩ :: rest
    else
      e :: recordOne tick seg rest

/-- Increment the adjacency count of a committed surface bigram. -/
def bumpBigram (key : List Char × List Char) :
    List ((List Char × List Char) × Nat) → List ((List Char × List Char) × Nat)
  | [] => [(key, 1)]
  | kv :: rest => if kv.1 = key then (kv.1, kv.2 + 1) :: rest else kv :: bumpBigram key rest

/-- Modelled from the spec (§4.D, engine.h `lex_history_record`): for each
segment increment its count and refresh its tick; record the adjacency of
consecutive committed segments in the bigram table. -/
def lex_history_record (h : LexUserHistory) (segs : List LexSegment) : LexUserHistory :=
  let h1 := segs.foldl
    (fun acc seg => ⟨recordOne acc.tick seg acc.entries, acc.bigrams, acc.tick + 1⟩) h
  ⟨h1.entries,
   (segs.zip segs.tail).foldl
     (fun bg pair => bumpBigram (pair.1.surface, pair.2.surface) bg) h1.bigrams,
   h1.tick⟩

/-- Count held for `(reading, surface)` (0 when absent). -/
def findCount : List HistEntry → List Char → List Char → Nat
  | [], _, _ => 0
  | e :: rest, r, s => if e.reading = r ∧ e.surface = s then e.count else findCount rest r s

/-- Modelled from the spec (§4.D): the non-negative history score of
`(reading, surface)` used to reduce Viterbi cost and bias ranked lookups.
The spec fixes only that it is non-negative and grows with the recorded
count; the count itself is used. -/
def historyScore (h : LexUserHistory) (reading surface : List Char) : Nat :=
  findCount h.entries reading surface

/-- Modelled from the spec (§6, engine.h `lex_history_save`): persisting the
history is I/O; its outcome is abstracted as the `io_ok` parameter.  Returns
0 on success and a negative value on I/O error. -/
def lex_history_save (_h : LexUserHistory) (io_ok : Bool) : Int :=
  if io_ok then 0 else -1

/-! ## Romaji transducer (engine.h `lex_romaji_lookup`, `lex_romaji_convert`) -/

/-- Modelled from the spec (§4.A): the static romaji-to-kana table (a
representative portion, including the multi-codepoint and `n` rows the spec
calls out). -/
def romajiTable : List (List Char × List Char) := [
  ("a".toList, "あ".toList), ("i".toList, "い".toList), ("u".toList, "う".toList),
  ("e".toList, "え".toList), ("o".toList, "お".toList),
  ("ka".toList, "か".toList), ("ki".toList, "き".toList), ("ku".toList, "く".toList),
  ("ke".toList, "け".toList), ("ko".toList, "こ".toList),
  ("kya".toList, "きゃ".toList), ("kyu".toList, "きゅ".toList), ("kyo".toList, "きょ".toList),
  ("sa".toList, "さ".toList), ("shi".toList, "し".toList), ("su".toList, "す".toList),
  ("se".toList, "せ".toList), ("so".toList, "そ".toList),
  ("ta".toList, "た".toList), ("chi".toList, "ち".toList), ("tsu".toList, "つ".toList),
  ("te".toList, "て".toList), ("to".toList, "と".toList),
  ("n".toList, "ん".toList), ("na".toList, "な".toList), ("ni".toList, "に".toList),
  ("nu".toList, "ぬ".toList), ("ne".toList, "ね".toList), ("no".toList, "の".toList),
  ("nya".toList, "にゃ".toList),
  ("ha".toList, "は".toList), ("hi".toList, "ひ".toList), ("fu".toList, "ふ".toList),
  ("he".toList, "へ".toList), ("ho".toList, "ほ".toList),
  ("ya".toList, "や".toList), ("yu".toList, "ゆ".toList), ("yo".toList, "よ".toList),
  ("wa".toList, "わ".toList), ("wo".toList, "を".toList)]

/-- Modelled from the spec (engine.h `LexRomajiLookupResult`): tag 0 = none,
1 = could still grow into a match, 2 = exact, 3 = exact and extendable; the
kana field is populated exactly for tags 2 and 3. -/
structure LexRomajiLookupResult where
  tag : Nat
  kana : Option (List Char)
deriving DecidableEq

/-- The kana of an exact table match, if any. -/
def romajiExact (r : List Char) : Option (List Char) :=
  (romajiTable.find? (fun kv => kv.1 = r)).map (fun kv => kv.2)

/-- Whether some strictly longer table key extends `r`. -/
def romajiExtendable (r : List Char) : Bool :=
  romajiTable.any (fun kv => startsWith r kv.1 && decide (r.length < kv.1.length))

/-- Modelled from the spec (§4.A, engine.h `lex_romaji_lookup`): classify a
romaji string against the static table. -/
def lex_romaji_lookup (r : List Char) : LexRomajiLookupResult :=
  match romajiExact r, romajiExtendable r with
  | some k, true => ⟨3, some k⟩
  | some k, false => ⟨2, some k⟩
  | none, true => ⟨1, none⟩
  | none, false => ⟨0, none⟩

/-- The shortest nonempty initial run of `pend` that is an exact table key,
with its kana and the remaining tail. -/
def romajiShortestExact (pend : List Char) : Option (List Char × List Char) :=
  (List.range pend.length).findSome? (fun j =>
    match romajiExact (pend.take (j + 1)) with
    | some k => some (k, pend.drop (j + 1))
    | none => none)

/-- Repeatedly consume the shortest exact table run of the pending romaji,
appending its kana to the composed text (fuel bounds the pending length). -/
def romajiConvertAux : Nat → List Char → List Char → List Char × List Char
  | 0, comp, pend => (comp, pend)
  | fuel + 1, comp, pend =>
    match romajiShortestExact pend with
    | some (k, rest) => romajiConvertAux fuel (comp ++ k) rest
    | none => (comp, pend)

/-- Modelled from the spec (§4.A, engine.h `lex_romaji_convert`): convert as
much pending romaji as matches exactly; with `force` set, any residual that
cannot convert is discarded. -/
def lex_romaji_convert (composed pend : List Char) (force : Bool) :
    List Char × List Char :=
  let cp := romajiConvertAux pend.length composed pend
  if force then (cp.1, []) else cp

/-! ## Candidate merger (engine.h `lex_generate_candidates`) -/

/-- Modelled from the spec (engine.h `LexCandidateResponse`): merged
candidate surfaces plus the n-best segment breakdowns. -/
structure LexCandidateResponse where
  surfaces : List (List Char)
  paths : List (List LexSegment)
deriving DecidableEq

/-- Modelled from the spec (§6): the history rerank weight α. -/
def alphaRerank : Int := 500

/-- Modelled from the spec (§6): the Viterbi history-bias weight β. -/
def betaBias : Int := 200

/-- Modelled from the spec (§4.B): effective score after the history rerank
pass (absent history leaves the cost unchanged). -/
def histBoostCost (hist : Option LexUserHistory) (c : LexCandidate) : Int :=
  match hist with
  | none => c.cost
  | some h => c.cost - alphaRerank * (historyScore h c.reading c.surface : Int)

/-- Exact lookup reranked by the history-boosted score. -/
def rankedLookup (dict : LexDict) (hist : Option LexUserHistory) (r : List Char) :
    List LexCandidate :=
  insSort (fun a b => histBoostCost hist a ≤ histBoostCost hist b) (lookupPrep dict r)

/-- Concatenated surfaces of a segment sequence. -/
def concatSurfaces (l : List LexSegment) : List Char :=
  l.foldr (fun seg acc => seg.surface ++ acc) []

/-- Modelled from the spec (§4.F, engine.h `lex_generate_candidates`): merge
the 1-best surface, the (history-reranked) exact lookup, and the n-best
whole-sentence surfaces; dedup on the rendered surface, cap at `max_results`;
also return the n-best segment breakdowns. -/
def lex_generate_candidates (dict : LexDict) (conn : Option LexConnectionMatrix)
    (hist : Option LexUserHistory) (reading : List Char) (max_results : Nat) :
    LexCandidateResponse :=
  let paths := lex_convert_nbest dict conn reading max_results
  let first := concatSurfaces (lex_convert dict conn reading)
  let dictSurfs := (rankedLookup dict hist reading).map (fun c => c.surface)
  let pathSurfs := paths.map concatSurfaces
  ⟨(dedupKey id (first :: dictSurfs ++ pathSurfs)).take max_results, paths⟩

/-! ## Input session (engine.h `LexSession`, `lex_session_handle_key`,
`lex_session_receive_candidates`, `lex_session_receive_ghost_text`) -/

/-- Modelled from the spec (§4.G): the session states. -/
inductive SessionState
  | idle
  | composing
  | selecting
  | awaitingCandidates
  | englishSub
deriving DecidableEq

/-- Modelled from the spec (§3, §4.G): the session-owned state — composing
kana, pending romaji tail, candidate list with selection, generation
counters, committed context and mode flags. -/
structure LexSession where
  state : SessionState
  composing_kana : List Char
  pending_romaji : List Char
  candidates : List (List Char)
  selected_index : Nat
  panel_visible : Bool
  programmer_mode : Bool
  defer_candidates : Bool
  conversion_mode : Nat
  generation : Nat
  ghost_generation : Nat
  committed_context : List Char
deriving DecidableEq

/-- Modelled from the spec (engine.h `LexKeyResponse`): the per-keystroke
response describing UI actions.  `none` marked/ghost text means "no change";
the candidate list length plays the role of `candidates_len`. -/
structure LexKeyResponse where
  consumed : Bool
  commit_text : Option (List Char)
  marked_text : Option (List Char)
  is_dashed_underline : Bool
  candidates : List (List Char)
  selected_index : Nat
  show_candidates : Bool
  hide_candidates : Bool
  switch_to_abc : Bool
  save_history : Bool
  needs_candidates : Bool
  candidate_reading : Option (List Char)
  candidate_dispatch : Nat
  ghost_text : Option (List Char)
  needs_ghost_text : Bool
  ghost_context : Option (List Char)
  ghost_generation : Nat
deriving DecidableEq

/-- The all-no-change response: nothing committed, no marked-text change, no
candidates, no panel edge, no async request. -/
def emptyResponse : LexKeyResponse :=
  ⟨true, none, none, false, [], 0, false, false, false, false, false, none, 0, none, false,
   none, 0⟩

/-- Modelled from the spec (§4.G): bound on the committed-context suffix. -/
def contextCap : Nat := 64

/-- Append committed text to the bounded context, trimming from the left. -/
def pushContext (ctx t : List Char) : List Char :=
  let l := ctx ++ t
  l.drop (l.length - contextCap)

def kcReturn : Nat := 36

def kcTab : Nat := 48

def kcSpace : Nat := 49

def kcBackspace : Nat := 51

def kcEscape : Nat := 53

/-- Latin letters, the keystrokes the romaji transducer consumes. -/
def isLetter (c : Char) : Bool :=
  ('a' ≤ c && c ≤ 'z') || ('A' ≤ c && c ≤ 'Z')

/-- Modelled from the spec (§4.G, engine.h `lex_session_handle_key`): the
keystroke state machine.  Command-modified keys are not consumed; programmer
mode passes letters through; Escape clears, Return commits (selected
candidate or composed text) and dispatches ghost text, Space requests
conversion or advances the selection, Backspace deletes one unit, letters
feed the romaji transducer. -/
def lex_session_handle_key (s : LexSession) (key_code : Nat) (text : Option (List Char))
    (flags : Nat) : LexSession × LexKeyResponse :=
  if flags / 2 % 2 = 1 then
    (s, { emptyResponse with consumed := false })
  else if s.programmer_mode then
    (s, { emptyResponse with consumed := false })
  else if key_code = kcEscape then
    ({ s with
        state := .idle, composing_kana := [], pending_romaji := [],
        candidates := [], selected_index := 0, panel_visible := false },
     { emptyResponse with
        consumed := decide (s.state ≠ .idle), marked_text := some [],
        hide_candidates := true })
  else if key_code = kcReturn then
    if s.composing_kana = [] ∧ s.pending_romaji = [] then
      (s, { emptyResponse with consumed := false })
    else
      let committed :=
        if s.panel_visible ∧ s.selected_index < s.candidates.length then
          s.candidates.getD s.selected_index []
        else s.composing_kana ++ s.pending_romaji
      ({ s with
          state := .idle, composing_kana := [], pending_romaji := [],
          candidates := [], selected_index := 0, panel_visible := false,
          committed_context := pushContext s.committed_context committed,
          ghost_generation := s.ghost_generation + 1 },
       { emptyResponse with
          commit_text := some committed, marked_text := some [],
          hide_candidates := true, save_history := true, needs_ghost_text := true,
          ghost_context := some (pushContext s.committed_context committed),
          ghost_generation := s.ghost_generation + 1 })
  else if key_code = kcSpace then
    if s.panel_visible then
      let idx := if s.selected_index + 1 < s.candidates.length then s.selected_index + 1 else 0
      ({ s with selected_index := idx },
       { emptyResponse with
          candidates := s.candidates, selected_index := idx,
          show_candidates := true })
    else if s.composing_kana = [] ∧ s.pending_romaji = [] then
      (s, { emptyResponse with consumed := false })
    else
      let forced := lex_romaji_convert s.composing_kana s.pending_romaji true
      ({ s with
          state := .awaitingCandidates, composing_kana := forced.1,
          pending_romaji := [], generation := s.generation + 1 },
       { emptyResponse with
          needs_candidates := true,
          candidate_reading := some forced.1, candidate_dispatch := 0,
          marked_text := some forced.1 })
  else if key_code = kcBackspace then
    if s.pending_romaji ≠ [] then
      let pend := s.pending_romaji.dropLast
      ({ s with pending_romaji := pend },
       { emptyResponse with marked_text := some (s.composing_kana ++ pend) })
    else if s.composing_kana ≠ [] then
      let comp := s.composing_kana.dropLast
      ({ s with
          composing_kana := comp,
          state := if comp = [] then .idle else s.state },
       { emptyResponse with marked_text := some comp })
    else
      (s, { emptyResponse with consumed := false })
  else
    match text with
    | some [ch] =>
      if isLetter ch then
        let step := lex_romaji_convert s.composing_kana (s.pending_romaji ++ [ch]) false
        ({ s with
            state := .composing, composing_kana := step.1, pending_romaji := step.2 },
         { emptyResponse with marked_text := some (step.1 ++ step.2) })
      else
        (s, { emptyResponse with consumed := false })
    | _ => (s, { emptyResponse with consumed := false })

/-- Modelled from the spec (§4.G, engine.h `lex_session_receive_candidates`):
apply an asynchronous candidate result; a result whose reading no longer
matches the session's current composing kana is dropped — the session is left
unchanged and the response carries no candidates and no UI change. -/
def lex_session_receive_candidates (s : LexSession) (reading : Option (List Char))
    (c : LexCandidateResponse) : LexSession × LexKeyResponse :=
  if reading = some s.composing_kana then
    ({ s with
        state := .selecting, candidates := c.surfaces, selected_index := 0,
        panel_visible := true },
     { emptyResponse with
        candidates := c.surfaces, selected_index := 0,
        show_candidates := true, marked_text := some s.composing_kana })
  else
    (s, emptyResponse)

/-- Modelled from the spec (§4.G, engine.h `lex_session_receive_ghost_text`):
apply an asynchronous ghost-text result; a result whose generation no longer
matches the session's ghost generation is dropped. -/
def lex_session_receive_ghost_text (s : LexSession) (g : Nat) (text : List Char) :
    LexSession × LexKeyResponse :=
  if g = s.ghost_generation then
    (s, { emptyResponse with ghost_text := some text, ghost_generation := g })
  else
    (s, emptyResponse)

/-- Modelled from the spec (engine.h `lex_session_is_composing`). -/
def lex_session_is_composing (s : LexSession) : Bool :=
  decide (s.composing_kana ≠ [] ∨ s.pending_romaji ≠ [])

/-- Modelled from the spec (engine.h `lex_session_committed_context`):
`none` when the context is empty. -/
def lex_session_committed_context (s : LexSession) : Option (List Char) :=
  if s.committed_context = [] then none else some s.committed_context

/-- Equality of key responses on every field except the `ghost_generation`
staleness counter. -/
def agreesExceptGhostGen (a b : LexKeyResponse) : Prop :=
  a.consumed = b.consumed ∧ a.commit_text = b.commit_text ∧
  a.marked_text = b.marked_text ∧ a.is_dashed_underline = b.is_dashed_underline ∧
  a.candidates = b.candidates ∧ a.selected_index = b.selected_index ∧
  a.show_candidates = b.show_candidates ∧ a.hide_candidates = b.hide_candidates ∧
  a.switch_to_abc = b.switch_to_abc ∧ a.save_history = b.save_history ∧
  a.needs_candidates = b.needs_candidates ∧ a.candidate_reading = b.candidate_reading ∧
  a.candidate_dispatch = b.candidate_dispatch ∧ a.ghost_text = b.ghost_text ∧
  a.needs_ghost_text = b.needs_ghost_text ∧ a.ghost_context = b.ghost_context

/-! ## Concrete instances used by the witnesses -/

/-- A small dictionary in the spirit of the spec's scenarios (§8): きょう with
今日/京, はし with 橋/箸/嘴/端 — 箸 and 嘴 tie on cost to exercise stable
ordering. -/
def sampleDict : LexDict :=
  ⟨[⟨"きょう".toList, "今日".toList, 100, 2, 2⟩,
    ⟨"きょう".toList, "京".toList, 200, 2, 2⟩,
    ⟨"はし".toList, "橋".toList, 100, 2, 2⟩,
    ⟨"はし".toList, "箸".toList, 120, 2, 2⟩,
    ⟨"はし".toList, "嘴".toList, 120, 2, 2⟩,
    ⟨"はし".toList, "端".toList, 130, 2, 2⟩]⟩

/-- An empty user history at tick 0. -/
def sampleHist : LexUserHistory := ⟨[], [], 0⟩

/-- A session composing あ, ghost generation 5. -/
def sampleSession : LexSession :=
  ⟨.composing, "あ".toList, [], [], 0, false, false, false, 0, 3, 5, []⟩

/-- An async candidate response for the staleness checks. -/
def sampleCands : LexCandidateResponse := ⟨["亜".toList], []⟩

/-! ## Properties of the embedding, and the claims -/

theorem ordInsert_perm (le : α → α → Bool) (a : α) (l : List α) :
    List.Perm (ordInsert le a l) (a :: l) := by
  induction l with
  | nil => simp [ordInsert]
  | cons b l ih =>
    simp only [ordInsert]
    split
    · exact List.Perm.refl _
    · exact (List.Perm.cons b ih).trans (List.Perm.swap a b l)

theorem insSort_perm (le : α → α → Bool) (l : List α) : List.Perm (insSort le l) l := by
  induction l with
  | nil => simp [insSort]
  | cons a l ih => exact (ordInsert_perm le a (insSort le l)).trans (ih.cons a)

theorem mem_insSort (le : α → α → Bool) {l : List α} {a : α} :
    a ∈ insSort le l ↔ a ∈ l :=
  (insSort_perm le l).mem_iff

theorem ordInsert_pairwise (le : α → α → Bool)
    (htr : ∀ a b c, le a b = true → le b c = true → le a c = true)
    (hto : ∀ a b, le a b = true ∨ le b a = true)
    (a : α) (l : List α) (hl : l.Pairwise (fun x y => le x y = true)) :
    (ordInsert le a l).Pairwise (fun x y => le x y = true) := by
  induction l with
  | nil => simp [ordInsert]
  | cons b l ih =>
    simp only [ordInsert]
    rcases List.pairwise_cons.mp hl with ⟨hb, hl'⟩
    split
    · rename_i hab
      refine List.pairwise_cons.mpr ⟨?_, hl⟩
      intro x hx
      rcases List.mem_cons.mp hx with rfl | hx'
      · exact hab
      · exact htr a b x hab (hb x hx')
    · rename_i hab
      have hba : le b a = true := by
        rcases hto a b with h | h
        · exact absurd h hab
        · exact h
      refine List.pairwise_cons.mpr ⟨?_, ih hl'⟩
      intro x hx
      have hx' : x ∈ a :: l := (ordInsert_perm le a l).mem_iff.mp hx
      rcases List.mem_cons.mp hx' with rfl | hx'
      · exact hba
      · exact hb x hx'

theorem insSort_pairwise (le : α → α → Bool)
    (htr : ∀ a b c, le a b = true → le b c = true → le a c = true)
    (hto : ∀ a b, le a b = true ∨ le b a = true)
    (l : List α) :
    (insSort le l).Pairwise (fun x y => le x y = true) := by
  induction l with
  | nil => simp [insSort]
  | cons a l ih => exact ordInsert_pairwise le htr hto a (insSort le l) ih

theorem sublist_ordInsert (le : α → α → Bool) (a : α) (l : List α) :
    List.Sublist l (ordInsert le a l) := by
  induction l with
  | nil => simp [ordInsert]
  | cons b l ih =>
    simp only [ordInsert]
    split
    · exact (List.Sublist.refl (b :: l)).cons a
    · exact ih.cons₂ b

theorem pair_sublist_ordInsert (le : α → α → Bool) {a b : α} {l : List α}
    (hab : le a b = true) (hb : b ∈ l) :
    List.Sublist [a, b] (ordInsert le a l) := by
  induction l with
  | nil => cases hb
  | cons c l ih =>
    simp only [ordInsert]
    split
    · exact (List.singleton_sublist.mpr hb).cons₂ a
    · rename_i hac
      rcases List.mem_cons.mp hb with rfl | hb'
      · exact absurd hab hac
      · exact (ih hb').cons c

theorem pair_sublist_insSort (le : α → α → Bool) {a b : α} {l : List α}
    (hab : le a b = true) (hl : List.Sublist [a, b] l) :
    List.Sublist [a, b] (insSort le l) := by
  induction l with
  | nil => cases hl
  | cons c l ih =>
    cases hl with
    | cons _ h =>
      exact ((ih h).trans (sublist_ordInsert le c (insSort le l)))
    | cons₂ _ h =>
      have hb : b ∈ insSort le l := (mem_insSort le).mpr (List.singleton_sublist.mp h)
      exact pair_sublist_ordInsert le hab hb

theorem dedupByKey_sublist [DecidableEq β] (key : α → β) :
    ∀ (l : List α) (seen : List β), List.Sublist (dedupByKey key l seen) l := by
  intro l
  induction l with
  | nil => intro seen; simp [dedupByKey]
  | cons x rest ih =>
    intro seen
    simp only [dedupByKey]
    split
    · exact (ih seen).cons x
    · exact (ih (key x :: seen)).cons₂ x

theorem dedupByKey_not_seen [DecidableEq β] (key : α → β) :
    ∀ (l : List α) (seen : List β) (a : α), a ∈ dedupByKey key l seen → key a ∉ seen := by
  intro l
  induction l with
  | nil => intro seen a ha; cases ha
  | cons x rest ih =>
    intro seen a ha
    simp only [dedupByKey] at ha
    split at ha
    · exact ih seen a ha
    · rcases List.mem_cons.mp ha with rfl | ha'
      · assumption
      · intro hmem
        exact ih _ a ha' (List.mem_cons.mpr (Or.inr hmem))

theorem dedupByKey_pairwise [DecidableEq β] (key : α → β) :
    ∀ (l : List α) (seen : List β),
      (dedupByKey key l seen).Pairwise (fun a b => key a ≠ key b) := by
  intro l
  induction l with
  | nil => intro seen; simp [dedupByKey]
  | cons x rest ih =>
    intro seen
    simp only [dedupByKey]
    split
    · exact ih seen
    · refine List.pairwise_cons.mpr ⟨?_, ih (key x :: seen)⟩
      intro b hb hkey
      exact dedupByKey_not_seen key rest (key x :: seen) b hb
        (List.mem_cons.mpr (Or.inl hkey.symm))

theorem dedupKey_sublist [DecidableEq β] (key : α → β) (l : List α) :
    List.Sublist (dedupKey key l) l :=
  dedupByKey_sublist key l []

theorem dedupKey_pairwise [DecidableEq β] (key : α → β) (l : List α) :
    (dedupKey key l).Pairwise (fun a b => key a ≠ key b) :=
  dedupByKey_pairwise key l []

theorem dedupKey_cons [DecidableEq β] (key : α → β) (x : α) (l : List α) :
    dedupKey key (x :: l) = x :: dedupByKey key l [key x] := by
  simp [dedupKey, dedupByKey]

theorem startsWith_iff : ∀ (p s : List Char), startsWith p s = true ↔ ∃ t, p ++ t = s := by
  intro p
  induction p with
  | nil => intro s; simp [startsWith]
  | cons a as ih =>
    intro s
    cases s with
    | nil => simp [startsWith]
    | cons b bs =>
      simp only [startsWith, Bool.and_eq_true, decide_eq_true_eq, ih bs]
      constructor
      · rintro ⟨rfl, t, rfl⟩
        exact ⟨t, rfl⟩
      · rintro ⟨t, h⟩
        injection h with h1 h2
        exact ⟨h1, t, h2⟩

theorem costLE_trans : ∀ a b c, costLE a b = true → costLE b c = true → costLE a c = true := by
  intro a b c hab hbc
  simp only [costLE, decide_eq_true_eq] at *
  omega

theorem costLE_total : ∀ a b, costLE a b = true ∨ costLE b a = true := by
  intro a b
  simp only [costLE, decide_eq_true_eq]
  omega

theorem lex_dict_lookup_mem {dict : LexDict} {r : List Char} {c : LexCandidate}
    (h : c ∈ lex_dict_lookup dict r) : c ∈ dict.entries ∧ c.reading = r := by
  have h1 : c ∈ lookupPrep dict r := (mem_insSort costLE).mp h
  have h2 : c ∈ dict.entries.filter (fun c => c.reading = r) :=
    (dedupKey_sublist rsKey _).subset h1
  have h3 := List.mem_filter.mp h2
  exact ⟨h3.1, by simpa using h3.2⟩

theorem mem_firstSegs {dict : LexDict} {s : List Char} {c : LexCandidate}
    (h : c ∈ firstSegs dict s) :
    c.reading ≠ [] ∧ c.reading ++ s.drop c.reading.length = s := by
  simp only [firstSegs, List.mem_append] at h
  rcases h with h | h
  · rcases List.mem_flatMap.mp h with ⟨r, hr, hc⟩
    have hr' : ∃ k, k < s.length ∧ List.take (k + 1) s = r := by
      simpa [segReads, List.mem_map, List.mem_range] using hr
    obtain ⟨k, hk', rfl⟩ := hr'
    have hread : c.reading = s.take (k + 1) := (lex_dict_lookup_mem hc).2
    have hlen : (s.take (k + 1)).length = k + 1 := by
      simp [List.length_take]; omega
    constructor
    · intro hnil
      rw [hread] at hnil
      have := congrArg List.length hnil
      simp [hlen] at this
    · rw [hread, hlen]
      exact List.take_append_drop (k + 1) s
  · cases s with
    | nil => cases h
    | cons ch rest =>
      have hc : c = unknownNodeOf ch := by simpa using h
      subst hc
      simp [unknownNodeOf]

theorem latticePathsF_cover (dict : LexDict) :
    ∀ (fuel : Nat) (s : List Char), s.length ≤ fuel →
      ∀ p ∈ latticePathsF dict fuel s, concatReads p = s := by
  intro fuel
  induction fuel with
  | zero =>
    intro s hs p hp
    have hnil : s = [] := List.length_eq_zero.mp (Nat.le_zero.mp hs)
    subst hnil
    simp only [latticePathsF, List.mem_singleton] at hp
    subst hp
    simp [concatReads]
  | succ n ih =>
    intro s hs p hp
    cases s with
    | nil =>
      simp only [latticePathsF, List.mem_singleton] at hp
      subst hp
      simp [concatReads]
    | cons c rest =>
      simp only [latticePathsF, List.mem_flatMap, List.mem_map] at hp
      obtain ⟨x, hx, q, hq, rfl⟩ := hp
      obtain ⟨hne, hcat⟩ := mem_firstSegs hx
      have hpos : 0 < x.reading.length := List.length_pos.mpr hne
      have hdrop : ((c :: rest).drop x.reading.length).length ≤ n := by
        simp only [List.length_drop, List.length_cons]
        simp only [List.length_cons] at hs
        omega
      have hcov := ih _ hdrop q hq
      show x.reading ++ concatReads q = c :: rest
      rw [hcov]
      exact hcat

theorem latticePathsF_has (dict : LexDict) :
    ∀ (fuel : Nat) (s : List Char), s.length ≤ fuel →
      ∃ p, p ∈ latticePathsF dict fuel s := by
  intro fuel
  induction fuel with
  | zero =>
    intro s hs
    have hnil : s = [] := List.length_eq_zero.mp (Nat.le_zero.mp hs)
    subst hnil
    exact ⟨[], by simp [latticePathsF]⟩
  | succ n ih =>
    intro s hs
    cases s with
    | nil => exact ⟨[], by simp [latticePathsF]⟩
    | cons c rest =>
      obtain ⟨q, hq⟩ := ih rest (by simpa using Nat.le_of_succ_le_succ (by simpa using hs))
      refine ⟨unknownNodeOf c :: q, ?_⟩
      simp only [latticePathsF, List.mem_flatMap, List.mem_map]
      refine ⟨unknownNodeOf c, ?_, q, ?_, rfl⟩
      · simp [firstSegs]
      · simpa [unknownNodeOf] using hq

theorem latticePaths_cover (dict : LexDict) (s : List Char) :
    ∀ p ∈ latticePaths dict s, concatReads p = s :=
  latticePathsF_cover dict s.length s (Nat.le_refl _)

theorem latticePaths_has (dict : LexDict) (s : List Char) :
    ∃ p, p ∈ latticePaths dict s :=
  latticePathsF_has dict s.length s (Nat.le_refl _)

theorem intLexLE_total : ∀ (as bs : List Int), intLexLE as bs = true ∨ intLexLE bs as = true := by
  intro as
  induction as with
  | nil => intro bs; left; simp [intLexLE]
  | cons a as ih =>
    intro bs
    cases bs with
    | nil => right; simp [intLexLE]
    | cons b bs =>
      simp only [intLexLE]
      by_cases h1 : a < b
      · left; simp [h1]
      · by_cases h2 : b < a
        · right; simp [h2]
        · rcases ih bs with h | h <;> simp [h1, h2, h]

theorem intLexLE_trans : ∀ (as bs cs : List Int),
    intLexLE as bs = true → intLexLE bs cs = true → intLexLE as cs = true := by
  intro as
  induction as with
  | nil => intro bs cs _ _; simp [intLexLE]
  | cons a as ih =>
    intro bs cs hab hbc
    cases bs with
    | nil => simp [intLexLE] at hab
    | cons b bs =>
      cases cs with
      | nil => simp [intLexLE] at hbc
      | cons c cs =>
        simp only [intLexLE] at hab hbc ⊢
        by_cases h1 : a < b
        · by_cases h2 : b < c
          · simp [show a < c by omega]
          · by_cases h3 : c < b
            · simp [h2, h3] at hbc
            · simp [show a < c by omega]
        · by_cases h4 : b < a
          · simp [h1, h4] at hab
          · have hab' : intLexLE as bs = true := by simpa [h1, h4] using hab
            have heq : a = b := by omega
            subst heq
            by_cases h2 : a < c
            · simp [h2]
            · by_cases h3 : c < a
              · simp [h2, h3] at hbc
              · have hbc' : intLexLE bs cs = true := by simpa [h2, h3] using hbc
                simp [h2, h3, ih bs cs hab' hbc']

theorem pathLE_total (conn : Option LexConnectionMatrix) :
    ∀ p q, pathLE conn p q = true ∨ pathLE conn q p = true := by
  intro p q
  simp only [pathLE]
  by_cases h1 : pathCost conn p < pathCost conn q
  · left; simp [h1]
  · by_cases h2 : pathCost conn q < pathCost conn p
    · right; simp [h2]
    · by_cases h3 : p.length < q.length
      · left; simp [h1, h2, h3]
      · by_cases h4 : q.length < p.length
        · right; simp [h1, h2, h4]
        · rcases intLexLE_total (costsOf p) (costsOf q) with h | h <;>
            simp [h1, h2, h3, h4, h]

theorem pathLE_trans (conn : Option LexConnectionMatrix) :
    ∀ p q r, pathLE conn p q = true → pathLE conn q r = true → pathLE conn p r = true := by
  intro p q r hpq hqr
  simp only [pathLE] at hpq hqr ⊢
  by_cases h1 : pathCost conn p < pathCost conn q
  · by_cases h2 : pathCost conn q < pathCost conn r
    · simp [show pathCost conn p < pathCost conn r by omega]
    · by_cases h3 : pathCost conn r < pathCost conn q
      · simp [h2, h3] at hqr
      · simp [show pathCost conn p < pathCost conn r by omega]
  · by_cases h4 : pathCost conn q < pathCost conn p
    · simp [h1, h4] at hpq
    · have hce : pathCost conn p = pathCost conn q := by omega
      by_cases h2 : pathCost conn q < pathCost conn r
      · simp [show pathCost conn p < pathCost conn r by omega]
      · by_cases h3 : pathCost conn r < pathCost conn q
        · simp [h2, h3] at hqr
        · have hce' : pathCost conn q = pathCost conn r := by omega
          have h5 : ¬ pathCost conn p < pathCost conn r := by omega
          have h6 : ¬ pathCost conn r < pathCost conn p := by omega
          by_cases h7 : p.length < q.length
          · by_cases h8 : q.length < r.length
            · simp [h5, h6, show p.length < r.length by omega]
            · by_cases h9 : r.length < q.length
              · simp [h2, h3, h8, h9] at hqr
              · simp [h5, h6, show p.length < r.length by omega]
          · by_cases h10 : q.length < p.length
            · simp [h1, h4, h7, h10] at hpq
            · have hle : p.length = q.length := by omega
              by_cases h8 : q.length < r.length
              · simp [h5, h6, show p.length < r.length by omega]
              · by_cases h9 : r.length < q.length
                · simp [h2, h3, h8, h9] at hqr
                · have hle' : q.length = r.length := by omega
                  have hpq' : intLexLE (costsOf p) (costsOf q) = true := by
                    simpa [h1, h4, h7, h10] using hpq
                  have hqr' : intLexLE (costsOf q) (costsOf r) = true := by
                    simpa [h2, h3, h8, h9] using hqr
                  simp [h5, h6, show ¬ p.length < r.length by omega,
                    show ¬ r.length < p.length by omega,
                    intLexLE_trans _ _ _ hpq' hqr']

theorem pathLE_cost_le {conn : Option LexConnectionMatrix} {p q : List LexCandidate}
    (h : pathLE conn p q = true) : pathCost conn p ≤ pathCost conn q := by
  simp only [pathLE] at h
  by_cases h1 : pathCost conn p < pathCost conn q
  · omega
  · by_cases h2 : pathCost conn q < pathCost conn p
    · simp [h1, h2] at h
    · omega

theorem concatSegReads_map (p : List LexCandidate) :
    concatSegReads (p.map toSegment) = concatReads p := by
  induction p with
  | nil => rfl
  | cons c q ih =>
    simp only [List.map_cons, concatSegReads, concatReads, List.foldr_cons] at *
    rw [ih]
    rfl

theorem sortedPaths_ne_nil (dict : LexDict) (conn : Option LexConnectionMatrix)
    (s : List Char) : sortedPaths dict conn s ≠ [] := by
  obtain ⟨p, hp⟩ := latticePaths_has dict s
  intro hnil
  have : p ∈ sortedPaths dict conn s := (mem_insSort (pathLE conn)).mpr hp
  rw [hnil] at this
  cases this

theorem convertPath_mem (dict : LexDict) (conn : Option LexConnectionMatrix) (s : List Char) :
    convertPath dict conn s ∈ latticePaths dict s := by
  have hne := sortedPaths_ne_nil dict conn s
  rcases hsp : sortedPaths dict conn s with _ | ⟨p, rest⟩
  · exact absurd hsp hne
  · have hp : p ∈ sortedPaths dict conn s := by rw [hsp]; exact List.mem_cons_self p rest
    have : convertPath dict conn s = p := by simp [convertPath, hsp]
    rw [this]
    exact (mem_insSort (pathLE conn)).mp hp

theorem convertPath_covers (dict : LexDict) (conn : Option LexConnectionMatrix)
    (s : List Char) : concatReads (convertPath dict conn s) = s :=
  latticePaths_cover dict s _ (convertPath_mem dict conn s)

theorem nbestPaths_subset {dict : LexDict} {conn : Option LexConnectionMatrix}
    {s : List Char} {n : Nat} {p : List LexCandidate}
    (h : p ∈ nbestPaths dict conn s n) : p ∈ latticePaths dict s := by
  have h1 : p ∈ dedupKey surfacesOf (sortedPaths dict conn s) :=
    (List.take_sublist n _).subset h
  have h2 : p ∈ sortedPaths dict conn s := (dedupKey_sublist surfacesOf _).subset h1
  exact (mem_insSort (pathLE conn)).mp h2

theorem findCount_recordOne (tick : Nat) (seg : LexSegment) :
    ∀ es : List HistEntry,
      findCount (recordOne tick seg es) seg.reading seg.surface =
        findCount es seg.reading seg.surface + 1 := by
  intro es
  induction es with
  | nil => simp [recordOne, findCount]
  | cons e rest ih =>
    by_cases h : e.reading = seg.reading ∧ e.surface = seg.surface
    · simp [recordOne, findCount, h]
    · simp [recordOne, findCount, h, ih]

/-- C1: for every kana string s, `lex_convert` returns a segmentation whose
concatenated segment readings equal s, and the conversion never fails: every
region of the input, including substrings absent from the dictionary, is
covered (by unknown nodes), so no gap can occur in the returned path. -/
theorem claim_C1_convert_total_coverage (dict : LexDict)
    (conn : Option LexConnectionMatrix) (s : List Char) :
    concatSegReads (lex_convert dict conn s) = s := by
  rw [lex_convert, concatSegReads_map]
  exact convertPath_covers dict conn s

/-- C2: for every kana string s and every n, `lex_convert_nbest` returns at
most n paths, emitted in non-decreasing total cost, with no two paths having
the same surface sequence; and the first returned path equals the result of
`lex_convert`. -/
theorem claim_C2_nbest_ordering (dict : LexDict) (conn : Option LexConnectionMatrix)
    (s : List Char) (n : Nat) :
    (lex_convert_nbest dict conn s n).length ≤ n ∧
    (nbestPaths dict conn s n).Pairwise (fun p q => pathCost conn p ≤ pathCost conn q) ∧
    (nbestPaths dict conn s n).Pairwise (fun p q => surfacesOf p ≠ surfacesOf q) ∧
    (0 < n → (lex_convert_nbest dict conn s n).head? = some (lex_convert dict conn s)) := by
  refine ⟨?_, ?_, ?_, ?_⟩
  · rw [lex_convert_nbest, List.length_map, nbestPaths]
    exact List.length_take_le n _
  · have hsorted : (sortedPaths dict conn s).Pairwise (fun p q => pathLE conn p q = true) :=
      insSort_pairwise (pathLE conn) (pathLE_trans conn) (pathLE_total conn) _
    have hdedup := hsorted.sublist (dedupKey_sublist surfacesOf _)
    have htake := hdedup.sublist (List.take_sublist n _)
    exact htake.imp (fun h => pathLE_cost_le h)
  · exact (dedupKey_pairwise surfacesOf _).sublist (List.take_sublist n _)
  · intro hn
    have hne := sortedPaths_ne_nil dict conn s
    rcases hsp : sortedPaths dict conn s with _ | ⟨p, rest⟩
    · exact absurd hsp hne
    · rcases n with _ | m
      · exact absurd hn (by omega)
      · have hcp : convertPath dict conn s = p := by
          simp only [convertPath, hsp]
        rw [lex_convert_nbest, nbestPaths, hsp, dedupKey_cons, List.take_succ_cons,
          List.map_cons, lex_convert, hcp]
        rfl

/-- C2 witness: at a concrete dictionary and input, the hypothesis `0 < 3` is
discharged and the first n-best path is the 1-best conversion. -/
theorem claim_C2_nbest_ordering_witness :
    0 < 3 ∧ (lex_convert_nbest sampleDict none ("はし".toList) 3).head? =
      some (lex_convert sampleDict none ("はし".toList)) :=
  ⟨by decide, (claim_C2_nbest_ordering sampleDict none ("はし".toList) 3).2.2.2 (by decide)⟩

/-- C3: a stale asynchronous candidate result is never applied: when
`lex_session_receive_candidates` is called with a reading that differs from
the session's current reading, the session state is left unchanged and the
returned response carries no candidates and no UI change; analogously,
`lex_session_receive_ghost_text` drops its input when the supplied generation
differs from the session's current ghost generation. -/
theorem claim_C3_stale_async_dropped (s : LexSession) (reading : Option (List Char))
    (c : LexCandidateResponse) (g : Nat) (t : List Char) :
    (reading ≠ some s.composing_kana →
      lex_session_receive_candidates s reading c = (s, emptyResponse) ∧
      (lex_session_receive_candidates s reading c).2.candidates = [] ∧
      (lex_session_receive_candidates s reading c).2.marked_text = none ∧
      (lex_session_receive_candidates s reading c).2.commit_text = none ∧
      (lex_session_receive_candidates s reading c).2.show_candidates = false ∧
      (lex_session_receive_candidates s reading c).2.hide_candidates = false ∧
      (lex_session_receive_candidates s reading c).2.ghost_text = none) ∧
    (g ≠ s.ghost_generation →
      lex_session_receive_ghost_text s g t = (s, emptyResponse) ∧
      (lex_session_receive_ghost_text s g t).2.ghost_text = none ∧
      (lex_session_receive_ghost_text s g t).2.marked_text = none ∧
      (lex_session_receive_ghost_text s g t).2.candidates = []) := by
  constructor
  · intro h
    simp [lex_session_receive_candidates, h, emptyResponse]
  · intro h
    simp [lex_session_receive_ghost_text, h, emptyResponse]

/-- C3 witness: at a concrete session composing あ, a result for い and a
ghost result for a stale generation are both dropped. -/
theorem claim_C3_stale_async_dropped_witness :
    some ("い".toList) ≠ some sampleSession.composing_kana ∧
    lex_session_receive_candidates sampleSession (some ("い".toList)) sampleCands =
      (sampleSession, emptyResponse) ∧
    (7 : Nat) ≠ sampleSession.ghost_generation ∧
    lex_session_receive_ghost_text sampleSession 7 ("話".toList) =
      (sampleSession, emptyResponse) :=
  ⟨by decide,
   ((claim_C3_stale_async_dropped sampleSession (some ("い".toList)) sampleCands 7
      ("話".toList)).1 (by decide)).1,
   by decide,
   ((claim_C3_stale_async_dropped sampleSession (some ("い".toList)) sampleCands 7
      ("話".toList)).2 (by decide)).1⟩

/-- C4: for every reading r, the candidate list returned by `lex_dict_lookup`
is sorted by non-decreasing cost, with ties broken by stable insertion order
(a cost-tied pair adjacent in the prepared entry order stays a sublist of the
result), and contains no two candidates with the same (reading, surface)
pair. -/
theorem claim_C4_lookup_sorted_stable_nodup (dict : LexDict) (r : List Char) :
    (lex_dict_lookup dict r).Pairwise (fun a b => a.cost ≤ b.cost) ∧
    (lex_dict_lookup dict r).Pairwise (fun a b => rsKey a ≠ rsKey b) ∧
    (∀ a b : LexCandidate, a.cost = b.cost →
      List.Sublist [a, b] (lookupPrep dict r) →
      List.Sublist [a, b] (lex_dict_lookup dict r)) := by
  refine ⟨?_, ?_, ?_⟩
  · exact (insSort_pairwise costLE costLE_trans costLE_total _).imp
      (fun h => by simpa [costLE, decide_eq_true_eq] using h)
  · have hd := dedupKey_pairwise rsKey (dict.entries.filter (fun c => c.reading = r))
    exact ((insSort_perm costLE (lookupPrep dict r)).pairwise_iff
      (fun hab heq => hab heq.symm)).mpr hd
  · intro a b hcost hsub
    exact pair_sublist_insSort costLE (by simp [costLE, hcost]) hsub

/-- C4 witness: 箸 and 嘴 tie on cost 120 in the sample dictionary; the pair
stays in insertion order in the sorted lookup result. -/
theorem claim_C4_lookup_sorted_stable_nodup_witness :
    (⟨"はし".toList, "箸".toList, 120, 2, 2⟩ : LexCandidate).cost =
      (⟨"はし".toList, "嘴".toList, 120, 2, 2⟩ : LexCandidate).cost ∧
    List.Sublist
      [⟨"はし".toList, "箸".toList, 120, 2, 2⟩, ⟨"はし".toList, "嘴".toList, 120, 2, 2⟩]
      (lex_dict_lookup sampleDict ("はし".toList)) :=
  ⟨rfl,
   (claim_C4_lookup_sorted_stable_nodup sampleDict ("はし".toList)).2.2
     ⟨"はし".toList, "箸".toList, 120, 2, 2⟩ ⟨"はし".toList, "嘴".toList, 120, 2, 2⟩
     rfl (by decide)⟩

/-- C5: for every kana run p and every bound k, `lex_dict_predict` returns at
most k candidates, every returned candidate's reading has p as a kana
initial run, and when more matching candidates exist than k the k cheapest
are the ones returned: the result is the front of the cost-sorted matching
pool, every returned cost is at most every omitted cost, and the sorted pool
is a permutation of the matching entries. -/
theorem claim_C5_predict_bound (dict : LexDict) (p : List Char) (k : Nat) :
    (lex_dict_predict dict p k).length ≤ k ∧
    (∀ c ∈ lex_dict_predict dict p k, startsWith p c.reading = true) ∧
    (∀ c ∈ lex_dict_predict dict p k, ∀ d ∈ (predictSorted dict p).drop k,
      c.cost ≤ d.cost) ∧
    lex_dict_predict dict p k ++ (predictSorted dict p).drop k = predictSorted dict p ∧
    List.Perm (predictSorted dict p) (predictPrep dict p) := by
  refine ⟨?_, ?_, ?_, ?_, ?_⟩
  · rw [lex_dict_predict]
    exact List.length_take_le k _
  · intro c hc
    have h1 : c ∈ predictSorted dict p := (List.take_sublist _ _).subset hc
    have h2 : c ∈ predictPrep dict p := (mem_insSort costLE).mp h1
    have h3 : c ∈ dict.entries.filter (fun c => startsWith p c.reading) :=
      (dedupKey_sublist rsKey _).subset h2
    exact (List.mem_filter.mp h3).2
  · intro c hc d hd
    have hp : (predictSorted dict p).Pairwise (fun a b => costLE a b = true) :=
      insSort_pairwise costLE costLE_trans costLE_total _
    rw [← List.take_append_drop k (predictSorted dict p)] at hp
    have hrel := (List.pairwise_append.mp hp).2.2 c hc d hd
    simpa [costLE, decide_eq_true_eq] using hrel
  · exact List.take_append_drop k _
  · exact insSort_perm costLE _

/-- C5 witness: at the sample dictionary with p = は and k = 2, the bound
holds and a concrete returned candidate's reading extends は. -/
theorem claim_C5_predict_bound_witness :
    (lex_dict_predict sampleDict ("は".toList) 2).length ≤ 2 ∧
    startsWith ("は".toList)
      (⟨"はし".toList, "橋".toList, 100, 2, 2⟩ : LexCandidate).reading = true ∧
    (⟨"はし".toList, "橋".toList, 100, 2, 2⟩ : LexCandidate).cost ≤
      (⟨"はし".toList, "端".toList, 130, 2, 2⟩ : LexCandidate).cost :=
  ⟨(claim_C5_predict_bound sampleDict ("は".toList) 2).1,
   (claim_C5_predict_bound sampleDict ("は".toList) 2).2.1
     ⟨"はし".toList, "橋".toList, 100, 2, 2⟩ (by decide),
   (claim_C5_predict_bound sampleDict ("は".toList) 2).2.2.1
     ⟨"はし".toList, "橋".toList, 100, 2, 2⟩ (by decide)
     ⟨"はし".toList, "端".toList, 130, 2, 2⟩ (by decide)⟩

/-- C6: for every segment, after `lex_history_record` with that single
segment, the history score of its (reading, surface) is strictly greater
than it was before the call. -/
theorem claim_C6_history_record_score (h : LexUserHistory) (seg : LexSegment) :
    historyScore h seg.reading seg.surface <
      historyScore (lex_history_record h [seg]) seg.reading seg.surface := by
  simp only [historyScore, lex_history_record, List.foldl_cons, List.foldl_nil,
    List.tail_cons, List.zip_nil_right]
  rw [findCount_recordOne]
  omega

/-- C7: runtime operations do not fail but degrade: lookup of a reading not
in the dictionary returns an empty list, conversion of the empty kana string
returns an empty result, and `lex_history_save` returns 0 on success and a
negative value on I/O error. -/
theorem claim_C7_runtime_degrades (dict : LexDict) (r : List Char)
    (conn : Option LexConnectionMatrix) (h : LexUserHistory) :
    ((∀ c ∈ dict.entries, c.reading ≠ r) → lex_dict_lookup dict r = []) ∧
    lex_convert dict conn [] = [] ∧
    lex_history_save h true = 0 ∧ lex_history_save h false < 0 := by
  refine ⟨?_, ?_, rfl, by norm_num [lex_history_save]⟩
  · intro hno
    have hf : dict.entries.filter (fun c => c.reading = r) = [] := by
      rw [List.filter_eq_nil_iff]
      intro c hc
      simpa using hno c hc
    rw [lex_dict_lookup, lookupPrep, hf]
    rfl
  · have hmem := convertPath_mem dict conn []
    simp only [latticePaths, List.length_nil, latticePathsF, List.mem_singleton] at hmem
    rw [lex_convert, hmem]
    rfl

/-- C7 witness: at concrete inputs, an absent reading yields the empty list,
the empty input converts to the empty result, and saving succeeds with 0. -/
theorem claim_C7_runtime_degrades_witness :
    lex_dict_lookup sampleDict ("ぬ".toList) = [] ∧
    lex_convert sampleDict none [] = [] ∧ lex_history_save sampleHist true = 0 :=
  ⟨(claim_C7_runtime_degrades sampleDict ("ぬ".toList) none sampleHist).1 (by decide),
   (claim_C7_runtime_degrades sampleDict ("ぬ".toList) none sampleHist).2.1,
   (claim_C7_runtime_degrades sampleDict ("ぬ".toList) none sampleHist).2.2.1⟩

/-- C8: for every romaji string, `lex_romaji_lookup` returns a tag in
{none, prefix-of-a-longer-key, exact, exact-and-extendable} (encoded 0..3),
and its kana field is populated exactly when the tag is 2 or 3. -/
theorem claim_C8_romaji_lookup_shape (r : List Char) :
    (lex_romaji_lookup r).tag ≤ 3 ∧
    ((lex_romaji_lookup r).kana ≠ none ↔
      (lex_romaji_lookup r).tag = 2 ∨ (lex_romaji_lookup r).tag = 3) := by
  rcases hre : romajiExact r with _ | k <;> rcases hext : romajiExtendable r <;>
    simp [lex_romaji_lookup, hre, hext]

/-- C9: `lex_session_handle_key` is deterministic up to the generation
counter: two calls with the same key event on two sessions in identical
state produce identical responses, except possibly for the
`ghost_generation` field. -/
theorem claim_C9_handle_key_deterministic (s1 s2 : LexSession) (key_code : Nat)
    (text : Option (List Char)) (flags : Nat) (h : s1 = s2) :
    agreesExceptGhostGen (lex_session_handle_key s1 key_code text flags).2
      (lex_session_handle_key s2 key_code text flags).2 := by
  subst h
  exact ⟨rfl, rfl, rfl, rfl, rfl, rfl, rfl, rfl, rfl, rfl, rfl, rfl, rfl, rfl, rfl, rfl⟩

/-- C9 witness: the identical-state hypothesis discharged at a concrete
session and a Space keystroke. -/
theorem claim_C9_handle_key_deterministic_witness :
    agreesExceptGhostGen (lex_session_handle_key sampleSession kcSpace none 0).2
      (lex_session_handle_key sampleSession kcSpace none 0).2 :=
  claim_C9_handle_key_deterministic sampleSession sampleSession kcSpace none 0 rfl

/-- C10: the connection-matrix argument is optional at the conversion
interface: with an absent (`none`) matrix, `lex_convert`, `lex_convert_nbest`
and `lex_generate_candidates` still return a complete result rather than
failing — the returned segmentations fully cover the input. -/
theorem claim_C10_null_conn_total (dict : LexDict) (s : List Char) (n : Nat)
    (hist : Option LexUserHistory) (r : List Char) (k : Nat) :
    concatSegReads (lex_convert dict none s) = s ∧
    (∀ p ∈ nbestPaths dict none s n, concatReads p = s) ∧
    (∀ q ∈ (lex_generate_candidates dict none hist r k).paths, concatSegReads q = r) := by
  refine ⟨?_, ?_, ?_⟩
  · rw [lex_convert, concatSegReads_map]
    exact convertPath_covers dict none s
  · intro p hp
    exact latticePaths_cover dict s p (nbestPaths_subset hp)
  · intro q hq
    have hq' : q ∈ lex_convert_nbest dict none r k := by
      simpa [lex_generate_candidates] using hq
    rcases List.mem_map.mp hq' with ⟨p, hp, rfl⟩
    rw [concatSegReads_map]
    exact latticePaths_cover dict r p (nbestPaths_subset hp)

/-- C10 witness: with the matrix absent, conversion of はし covers the input,
and a concrete n-best path covers it too. -/
theorem claim_C10_null_conn_total_witness :
    concatSegReads (lex_convert sampleDict none ("はし".toList)) = "はし".toList ∧
    concatReads [⟨"はし".toList, "橋".toList, 100, 2, 2⟩] = "はし".toList :=
  ⟨(claim_C10_null_conn_total sampleDict ("はし".toList) 3 none ("はし".toList) 3).1,
   (claim_C10_null_conn_total sampleDict ("はし".toList) 3 none ("はし".toList) 3).2.1
     [⟨"はし".toList, "橋".toList, 100, 2, 2⟩] (by decide)⟩
